import Mathlib

/-!
Verification of the slurm-exporter collection-orchestration subsystem.

The development shallowly embeds, in Lean, the components the specification
describes: the TTL-aware LRU cache store, the cardinality optimizer, the
collector registry, the HTTP readiness and metrics handlers, and the
partition-gauge computation.  The cache store, cardinality optimizer and
registry implementations are modelled from the specification (their Go
sources are not part of the tree; only their tests and interface
declarations are), while the server handlers and partition gauges are
translated from the Go source.  Time is modelled as a logical `Nat` clock
passed explicitly to every operation.
-/

namespace SlurmExporter

/-! ### Cache store

Modelled from the spec: `internal/performance/cache.go` is absent from the
tree (only `cache_test.go` is present).  A store holds keyed entries with
absolute expiry times and last-access stamps; insertion of a new key into a
full store first evicts the least-recently-accessed live entry, ties broken
by insertion order (oldest wins).  Expiry is lazy: checked on access only.
-/

structure CacheEntry (α : Type) where
  key : String
  value : α
  expiresAt : Nat
  lastAccessed : Nat
  seq : Nat
deriving DecidableEq

structure CacheStore (α : Type) where
  name : String
  maxSize : Nat
  defaultTTL : Nat
  entries : List (CacheEntry α)
  seqCounter : Nat
  hitCount : Nat
  missCount : Nat
deriving DecidableEq

/-- Remove the first entry carrying the given key. -/
def eraseKey {α : Type} : List (CacheEntry α) → String → List (CacheEntry α)
  | [], _ => []
  | e :: es, k => if e.key = k then es else e :: eraseKey es k

/-- Strict LRU preference: smaller last-access stamp wins, ties broken by
insertion sequence (older insertion wins). -/
def lruBefore {α : Type} (a b : CacheEntry α) : Bool :=
  decide (a.lastAccessed < b.lastAccessed) ||
    (decide (a.lastAccessed = b.lastAccessed) && decide (a.seq < b.seq))

/-- The least-recently-accessed entry of a list; on ties the earlier list
element is kept. -/
def pickLRU {α : Type} : List (CacheEntry α) → Option (CacheEntry α)
  | [] => none
  | e :: es =>
    match pickLRU es with
    | none => some e
    | some b => if lruBefore b e then some b else some e

/-- The entries that have not yet expired at the given instant. -/
def liveEntries {α : Type} (now : Nat) (es : List (CacheEntry α)) : List (CacheEntry α) :=
  es.filter (fun e => decide (now < e.expiresAt))

/-- Eviction victim: the least-recently-accessed non-expired entry; when no
entry is live, fall back to the least-recently-accessed entry overall. -/
def selectVictim {α : Type} (now : Nat) (es : List (CacheEntry α)) : Option (CacheEntry α) :=
  match pickLRU (liveEntries now es) with
  | some e => some e
  | none => pickLRU es

/-- A freshly created, empty store. -/
def newCacheStore (α : Type) (name : String) (maxSize defaultTTL : Nat) : CacheStore α :=
  { name := name, maxSize := maxSize, defaultTTL := defaultTTL,
    entries := [], seqCounter := 0, hitCount := 0, missCount := 0 }

/-- TTL resolution: a TTL of zero falls back to the store's default TTL. -/
def resolveTTL {α : Type} (s : CacheStore α) (ttl : Nat) : Nat :=
  if ttl = 0 then s.defaultTTL else ttl

/-- The entry list after making room for one new key: at capacity, the
selected victim is evicted first; below capacity the entries are unchanged. -/
def evictIfFull {α : Type} (s : CacheStore α) (now : Nat) : List (CacheEntry α) :=
  if s.maxSize ≤ s.entries.length then
    match selectVictim now s.entries with
    | some victim => eraseKey s.entries victim.key
    | none => s.entries
  else s.entries

/-- `Set`: insert or overwrite.  Overwriting refreshes value, expiry and
last-access stamp.  Inserting a new key into a full store first evicts the
selected victim. -/
def CacheStore.set {α : Type} (s : CacheStore α) (now : Nat) (k : String) (v : α)
    (ttl : Nat) : CacheStore α :=
  if s.entries.any (fun e => e.key == k) then
    { s with entries := s.entries.map (fun e =>
        if e.key = k then
          { e with value := v, expiresAt := now + resolveTTL s ttl, lastAccessed := now }
        else e) }
  else
    { s with entries := evictIfFull s now ++ [⟨k, v, now + resolveTTL s ttl, now, s.seqCounter⟩],
             seqCounter := s.seqCounter + 1 }

/-- `Get`: a hit on a live entry refreshes its last-access stamp; a hit on an
expired entry is a miss and purges the entry. -/
def CacheStore.get {α : Type} (s : CacheStore α) (now : Nat) (k : String) :
    Option α × CacheStore α :=
  match s.entries.find? (fun e => e.key == k) with
  | none => (none, { s with missCount := s.missCount + 1 })
  | some e =>
    if now < e.expiresAt then
      (some e.value,
        { s with hitCount := s.hitCount + 1,
                 entries := s.entries.map (fun e2 =>
                   if e2.key = k then { e2 with lastAccessed := now } else e2) })
    else
      (none, { s with missCount := s.missCount + 1, entries := eraseKey s.entries k })

/-- `Delete`: explicit removal. -/
def CacheStore.delete {α : Type} (s : CacheStore α) (k : String) : CacheStore α :=
  { s with entries := eraseKey s.entries k }

/-- `Clear`: drop every entry. -/
def CacheStore.clear {α : Type} (s : CacheStore α) : CacheStore α :=
  { s with entries := [] }

/-- `Size`: count of entries currently held (including not-yet-purged expired
ones). -/
def CacheStore.size {α : Type} (s : CacheStore α) : Nat :=
  s.entries.length

structure CacheStats where
  hitCount : Nat
  missCount : Nat
  size : Nat
deriving DecidableEq

/-- `Stats`: cumulative hit and miss counters plus current size. -/
def CacheStore.stats {α : Type} (s : CacheStore α) : CacheStats :=
  { hitCount := s.hitCount, missCount := s.missCount, size := s.size }

/-- One cache-store operation of the public interface, with its logical
instant. -/
inductive CacheOp (α : Type) where
  | set (now : Nat) (k : String) (v : α)
  | setWithTTL (now : Nat) (k : String) (v : α) (ttl : Nat)
  | get (now : Nat) (k : String)
  | delete (k : String)
  | clear

/-- Apply one operation to a store. -/
def applyOp {α : Type} (s : CacheStore α) : CacheOp α → CacheStore α
  | .set now k v => s.set now k v 0
  | .setWithTTL now k v ttl => s.set now k v ttl
  | .get now k => (s.get now k).2
  | .delete k => s.delete k
  | .clear => s.clear

/-- Run a sequence of operations. -/
def runOps {α : Type} (s : CacheStore α) (ops : List (CacheOp α)) : CacheStore α :=
  ops.foldl applyOp s

/-- Insert a list of keys in order, all at the same instant, same value and
TTL. -/
def fillStore {α : Type} (s : CacheStore α) (now ttl : Nat) (v : α)
    (ks : List String) : CacheStore α :=
  ks.foldl (fun s' k => s'.set now k v ttl) s

/-- The entry list produced by inserting fresh keys in order at one instant:
each key becomes a live entry stamped with consecutive sequence numbers. -/
def freshList {α : Type} (now ttl : Nat) (v : α) (seq : Nat) :
    List String → List (CacheEntry α)
  | [] => []
  | k :: ks => ⟨k, v, now + ttl, now, seq⟩ :: freshList now ttl v (seq + 1) ks

/-- Look up the stored entry for a key. -/
def findEntry {α : Type} (s : CacheStore α) (k : String) : Option (CacheEntry α) :=
  s.entries.find? (fun e => e.key == k)

/-! ### Cardinality optimizer

Modelled from the spec: `internal/performance/cardinality_optimizer.go` is
absent from the tree (only its test file is present).  The optimizer tracks a
set of seen series hashes and a per-metric-name cardinality count, enforces a
global ceiling, and (when sampling is enabled) admits new series past the
ceiling probabilistically; the probabilistic choice is modelled by a fixed
pseudo-random predicate of the series hash.  Labels are a map, carried here
as an association list in arbitrary iteration order. -/

/-- Deterministic string hash (stands in for the Go implementation's FNV-style
hash; the spec only requires determinism within one run). -/
def hashString (s : String) : Nat :=
  s.data.foldl (fun h c => h * 131 + c.toNat + 1) 7

/-- One label rendered for hashing. -/
def encodeLabel (p : String × String) : String :=
  p.1 ++ ":" ++ p.2

/-- Canonical form of a label map: each label is rendered and hashed, and the
label hashes are sorted, so that iteration order cannot influence the result
(the sort canonicalization that the spec prescribes, applied to the rendered
labels' hash values). -/
def canonicalLabels (labels : List (String × String)) : List Nat :=
  List.insertionSort (fun a b => a ≤ b) (labels.map (fun p => hashString (encodeLabel p)))

/-- Order-independent hash of a (metric name, label map) series: the metric
name's hash combined with the canonically ordered label hashes. -/
def hashMetric (name : String) (labels : List (String × String)) : Nat :=
  (canonicalLabels labels).foldl (fun h x => h * 1000003 + x + 1) (hashString name)

structure CardinalityOptimizer where
  maxCardinality : Nat
  sampleRate : Rat
  enableSampling : Bool
  metricCardinality : List (String × Nat)
  seenHashes : List Nat
deriving DecidableEq

/-- Constructor: a sample rate of exactly 1 means sampling disabled. -/
def newCardinalityOptimizer (maxCard : Nat) (rate : Rat) : CardinalityOptimizer :=
  { maxCardinality := maxCard, sampleRate := rate,
    enableSampling := decide (¬ rate = 1), metricCardinality := [], seenHashes := [] }

/-- Increment one metric name's cardinality count. -/
def bumpMetric : List (String × Nat) → String → List (String × Nat)
  | [], n => [(n, 1)]
  | (m, c) :: rest, n =>
    if m = n then (m, c + 1) :: rest else (m, c) :: bumpMetric rest n

/-- Total tracked cardinality: the number of distinct series hashes recorded. -/
def totalCardinality (co : CardinalityOptimizer) : Nat :=
  co.seenHashes.length

/-- Record a newly admitted series: remember its hash and bump the metric's
count. -/
def admitSeries (co : CardinalityOptimizer) (name : String) (h : Nat) :
    CardinalityOptimizer :=
  { co with seenHashes := h :: co.seenHashes,
            metricCardinality := bumpMetric co.metricCardinality name }

/-- Pseudo-random sampling decision at the given rate, a deterministic stand-in
for the Go implementation's random draw. -/
def sampleHit (rate : Rat) (h : Nat) : Bool :=
  decide (((h % 1000 : Nat) : Rat) < rate * 1000)

/-- The admission decision on a series hash.  A previously-seen hash is always
admitted without any state change; a new hash below the ceiling is admitted
and counted; at the ceiling, a sample rate of exactly 1 (sampling disabled)
rejects, otherwise the series is sampled and, when admitted, still counted. -/
def shouldCollectHash (co : CardinalityOptimizer) (name : String) (h : Nat) :
    Bool × CardinalityOptimizer :=
  if co.seenHashes.contains h then (true, co)
  else if totalCardinality co < co.maxCardinality then (true, admitSeries co name h)
  else if co.sampleRate = 1 then (false, co)
  else if sampleHit co.sampleRate h then (true, admitSeries co name h)
  else (false, co)

/-- The admission check: hash the series, then decide. -/
def shouldCollectMetric (co : CardinalityOptimizer) (name : String)
    (labels : List (String × String)) : Bool × CardinalityOptimizer :=
  shouldCollectHash co name (hashMetric name labels)

/-- Run a sequence of admission checks, threading the optimizer state. -/
def runCalls (co : CardinalityOptimizer)
    (calls : List (String × List (String × String))) : CardinalityOptimizer :=
  calls.foldl (fun c p => (shouldCollectMetric c p.1 p.2).2) co

structure CardinalityStats where
  totalCard : Nat
  maxCard : Nat
  rate : Rat
  metricCounts : List (String × Nat)
deriving DecidableEq

/-- Diagnostic snapshot of the optimizer. -/
def getCardinalityStats (co : CardinalityOptimizer) : CardinalityStats :=
  { totalCard := totalCardinality co, maxCard := co.maxCardinality,
    rate := co.sampleRate, metricCounts := co.metricCardinality }

/-! ### Collector registry

Modelled from the spec: the registry implementation is absent from the tree;
`src/unnamed/part_005` declares only its interface (`GetStats`, `CollectAll`).
A collector's `Collect` outcome on one pass is embedded as `Option String`
(`none` = success, `some msg` = failure, timeouts included).  `CollectAll`
runs every enabled collector, records each failure in that collector's state,
and returns an aggregate error exactly when every enabled collector failed
and at least one collector was enabled. -/

structure CollectorState where
  name : String
  enabled : Bool
  lastError : Option String
  consecutiveErrors : Nat
deriving DecidableEq

/-- One registered collector together with its state and its `Collect`
outcome on the modelled pass. -/
structure RegEntry where
  name : String
  enabled : Bool
  outcome : Option String
  state : CollectorState
deriving DecidableEq

/-- Per-collector state update after one collection attempt: success resets
the consecutive-error counter; failure stores the error and increments it. -/
def updateState (st : CollectorState) (outcome : Option String) : CollectorState :=
  match outcome with
  | none => { st with consecutiveErrors := 0 }
  | some m => { st with lastError := some m, consecutiveErrors := st.consecutiveErrors + 1 }

/-- Run one collector if enabled, recording the outcome in its state. -/
def runEntry (e : RegEntry) : RegEntry :=
  if e.enabled then { e with state := updateState e.state e.outcome } else e

/-- The errors produced by the enabled collectors on this pass, in
registration order. -/
def collectErrors (entries : List RegEntry) : List String :=
  entries.foldr
    (fun e acc =>
      if e.enabled then
        match e.outcome with
        | some m => m :: acc
        | none => acc
      else acc)
    []

/-- Number of enabled collectors. -/
def enabledCount (entries : List RegEntry) : Nat :=
  (entries.filter (fun e => e.enabled)).length

/-- `CollectAll`: run every enabled collector, record per-collector results,
and return the aggregate error exactly when all enabled collectors failed. -/
def collectAll (entries : List RegEntry) : Option String × List RegEntry :=
  if 0 < enabledCount entries ∧ (collectErrors entries).length = enabledCount entries then
    (some (String.intercalate "; " (collectErrors entries)), entries.map runEntry)
  else (none, entries.map runEntry)

/-- `GetStats`: snapshot of every collector's state, keyed by name. -/
def getStats (entries : List RegEntry) : List (String × CollectorState) :=
  entries.map (fun e => (e.name, e.state))

/-! ### HTTP handlers (translated from `src/unnamed/part_005`) -/

/-- The two error states a Go context can report. -/
inductive CtxErr where
  | deadlineExceeded
  | canceled
deriving DecidableEq

/-- Outcome of the metrics handler, as observable by the scrape caller. -/
inductive MetricsResponse where
  | cancelled408
  | served
deriving DecidableEq

/-- The metrics handler of `createMetricsHandler`.  The request context is
sampled at its three checkpoints (`e0`: before collection, `e1`: inspected
after `CollectAll` returns an error, `e2`: after collection); `collectErr` is
the result of `CollectAll`.  On a `CollectAll` error the handler returns 408
only when the context reports cancellation; on timeout or plain error it logs
and continues, serving whatever metrics exist. -/
def metricsHandler (e0 e1 e2 : Option CtxErr) (registryPresent : Bool)
    (collectErr : Option String) : MetricsResponse :=
  if e0.isSome then .cancelled408
  else if registryPresent && collectErr.isSome && decide (e1 = some .canceled) then
    .cancelled408
  else if e2.isSome then .cancelled408
  else .served

/-- The readiness handler of `handleReady`: status code and body.  `done0` and
`done1` sample the request context's cancellation at the handler's two
checkpoints; `registry` is `none` when no registry is wired. -/
def handleReady (done0 done1 : Bool) (shuttingDown : Bool)
    (registry : Option (List (String × CollectorState))) : Nat × String :=
  if done0 then (408, "Request cancelled")
  else if shuttingDown then (503, "Server is shutting down")
  else
    match registry with
    | some stats =>
      if done1 then (408, "Request cancelled")
      else if stats.any (fun p => p.2.enabled) then (200, "Ready")
      else (503, "No collectors enabled")
    | none => (200, "Ready")

/-! ### Partition gauges (translated from `src/unnamed/part_003`,
`publishPartitionMetrics`) -/

/-- Wrap an integer into Go's `int32` range, as Go conversions and `int32`
arithmetic do. -/
def wrap32 (n : Int) : Int :=
  (n + 2 ^ 31) % 2 ^ 32 - 2 ^ 31

/-- The partition fields the gauge computation reads; `none` models a nil
pointer in the Go struct chain. -/
structure PartitionInput where
  nodesTotal : Option Int
  cpusTotal : Option Int
deriving DecidableEq

/-- The per-partition aggregate built by `buildPartitionStats`; fields are Go
`int`s. -/
structure PartitionStatsGo where
  idleNodes : Int
  downNodes : Int
  allocatedCPUs : Int
deriving DecidableEq

/-- The Go clamp `if x < 0 then x = 0`. -/
def clampNonneg (a : Int) : Int :=
  if a < 0 then 0 else a

/-- The `partition_nodes_allocated` gauge value: total minus idle minus down,
clamped at zero, computed only when the total is positive and stats exist;
otherwise the raw total is published. -/
def allocatedNodesGauge (p : PartitionInput) (stats : Option PartitionStatsGo) : Int :=
  match stats with
  | some st =>
    if 0 < p.nodesTotal.getD 0 then
      clampNonneg (wrap32 (wrap32 (p.nodesTotal.getD 0 - wrap32 st.idleNodes) -
        wrap32 st.downNodes))
    else p.nodesTotal.getD 0
  | none => p.nodesTotal.getD 0

/-- The allocated-CPU total read from the stats pointer (zero when nil). -/
def statAllocCPUs (stats : Option PartitionStatsGo) : Int :=
  match stats with
  | some st => wrap32 st.allocatedCPUs
  | none => 0

/-- The `partition_cpus_idle` gauge value: total minus allocated, clamped at
zero. -/
def idleCPUsGauge (p : PartitionInput) (stats : Option PartitionStatsGo) : Int :=
  clampNonneg (wrap32 (p.cpusTotal.getD 0 - statAllocCPUs stats))

/-- A concrete three-collector registry where one collector fails, mirroring
the spec's partial-failure scenario. -/
def demoEntries : List RegEntry :=
  [⟨"ok1", true, none, ⟨"ok1", true, none, 0⟩⟩,
   ⟨"failing", true, some "boom", ⟨"failing", true, none, 0⟩⟩,
   ⟨"ok2", true, none, ⟨"ok2", true, none, 0⟩⟩]

/-! ### Lemmas: cardinality optimizer -/

lemma shouldCollect_sampleRate (co : CardinalityOptimizer) (n : String)
    (l : List (String × String)) :
    ((shouldCollectMetric co n l).2).sampleRate = co.sampleRate := by
  unfold shouldCollectMetric shouldCollectHash admitSeries
  split_ifs <;> rfl

lemma shouldCollect_maxCard (co : CardinalityOptimizer) (n : String)
    (l : List (String × String)) :
    ((shouldCollectMetric co n l).2).maxCardinality = co.maxCardinality := by
  unfold shouldCollectMetric shouldCollectHash admitSeries
  split_ifs <;> rfl

lemma shouldCollect_total_le (co : CardinalityOptimizer) (n : String)
    (l : List (String × String)) (hrate : co.sampleRate = 1)
    (hle : totalCardinality co ≤ co.maxCardinality) :
    totalCardinality (shouldCollectMetric co n l).2 ≤ co.maxCardinality := by
  unfold shouldCollectMetric shouldCollectHash
  split_ifs with h1 h2 <;>
    first
      | exact hle
      | (simp only [totalCardinality, admitSeries, List.length_cons] at h2 ⊢; omega)

lemma runCalls_sampleRate (calls : List (String × List (String × String))) :
    ∀ co : CardinalityOptimizer, (runCalls co calls).sampleRate = co.sampleRate := by
  induction calls with
  | nil => intro co; rfl
  | cons c cs ih =>
    intro co
    show (runCalls (shouldCollectMetric co c.1 c.2).2 cs).sampleRate = co.sampleRate
    rw [ih, shouldCollect_sampleRate]

lemma runCalls_maxCard (calls : List (String × List (String × String))) :
    ∀ co : CardinalityOptimizer, (runCalls co calls).maxCardinality = co.maxCardinality := by
  induction calls with
  | nil => intro co; rfl
  | cons c cs ih =>
    intro co
    show (runCalls (shouldCollectMetric co c.1 c.2).2 cs).maxCardinality = co.maxCardinality
    rw [ih, shouldCollect_maxCard]

lemma runCalls_total_le (calls : List (String × List (String × String))) :
    ∀ co : CardinalityOptimizer, co.sampleRate = 1 →
      totalCardinality co ≤ co.maxCardinality →
      totalCardinality (runCalls co calls) ≤ co.maxCardinality := by
  induction calls with
  | nil => intro co _ hle; exact hle
  | cons c cs ih =>
    intro co hrate hle
    show totalCardinality (runCalls (shouldCollectMetric co c.1 c.2).2 cs) ≤ co.maxCardinality
    have h1 := ih (shouldCollectMetric co c.1 c.2).2
      (by rw [shouldCollect_sampleRate]; exact hrate)
      (by rw [shouldCollect_maxCard]; exact shouldCollect_total_le co c.1 c.2 hrate hle)
    rwa [shouldCollect_maxCard] at h1

/-- Claim C6: the label-set hash is order-independent — two label maps holding
exactly the same key/value pairs, in any iteration order, hash identically. -/
theorem hashMetric_order_independent (name : String)
    (l1 l2 : List (String × String)) (hp : l1.Perm l2) :
    hashMetric name l1 = hashMetric name l2 := by
  unfold hashMetric
  have hc : canonicalLabels l1 = canonicalLabels l2 := by
    unfold canonicalLabels
    exact List.eq_of_perm_of_sorted
      ((List.perm_insertionSort _ _).trans
        ((hp.map _).trans (List.perm_insertionSort _ _).symm))
      (List.sorted_insertionSort _ _) (List.sorted_insertionSort _ _)
  rw [hc]

/-- Witness for C6 at the test's concrete label maps. -/
theorem hashMetric_order_independent_witness :
    hashMetric "test_metric" [("job", "test"), ("instance", "node1")] =
      hashMetric "test_metric" [("instance", "node1"), ("job", "test")] :=
  hashMetric_order_independent "test_metric"
    [("job", "test"), ("instance", "node1")]
    [("instance", "node1"), ("job", "test")] (by decide)

/-- Claim C7: a series whose hash has already been recorded is always admitted
again, and the call leaves the optimizer — in particular the total tracked
cardinality and every per-metric count — completely unchanged, whatever the
ceiling and sample rate are. -/
theorem shouldCollectMetric_repeat_admitted (co : CardinalityOptimizer)
    (name : String) (labels : List (String × String))
    (h : hashMetric name labels ∈ co.seenHashes) :
    shouldCollectMetric co name labels = (true, co) ∧
    getCardinalityStats (shouldCollectMetric co name labels).2 = getCardinalityStats co := by
  have hc : co.seenHashes.contains (hashMetric name labels) = true := by simpa using h
  have h1 : shouldCollectMetric co name labels = (true, co) := by
    unfold shouldCollectMetric shouldCollectHash
    simp [hc, h]
  exact ⟨h1, by rw [h1]⟩

/-- Witness for C7: after admitting a series, re-observing the same series is
admitted and changes nothing. -/
theorem shouldCollectMetric_repeat_admitted_witness :
    shouldCollectMetric
        (runCalls (newCardinalityOptimizer 10000 1) [("jobs_total", [("cluster", "test")])])
        "jobs_total" [("cluster", "test")] =
      (true, runCalls (newCardinalityOptimizer 10000 1) [("jobs_total", [("cluster", "test")])]) ∧
    getCardinalityStats
        (shouldCollectMetric
          (runCalls (newCardinalityOptimizer 10000 1) [("jobs_total", [("cluster", "test")])])
          "jobs_total" [("cluster", "test")]).2 =
      getCardinalityStats
        (runCalls (newCardinalityOptimizer 10000 1) [("jobs_total", [("cluster", "test")])]) :=
  shouldCollectMetric_repeat_admitted _ "jobs_total" [("cluster", "test")] (by decide)

/-- Claim C2: with the ceiling set to C and sampling disabled (rate exactly 1),
any sequence of admission checks tracks at most C distinct series, and once C
series are tracked every previously-unseen series is rejected. -/
theorem cardinality_ceiling_no_sampling (C : Nat)
    (calls : List (String × List (String × String))) :
    totalCardinality (runCalls (newCardinalityOptimizer C 1) calls) ≤ C ∧
    ∀ name labels,
      C ≤ totalCardinality (runCalls (newCardinalityOptimizer C 1) calls) →
      hashMetric name labels ∉ (runCalls (newCardinalityOptimizer C 1) calls).seenHashes →
      (shouldCollectMetric (runCalls (newCardinalityOptimizer C 1) calls) name labels).fst =
        false := by
  have hrate : (runCalls (newCardinalityOptimizer C 1) calls).sampleRate = 1 :=
    runCalls_sampleRate calls (newCardinalityOptimizer C 1)
  have hmax : (runCalls (newCardinalityOptimizer C 1) calls).maxCardinality = C :=
    runCalls_maxCard calls (newCardinalityOptimizer C 1)
  have hle : totalCardinality (runCalls (newCardinalityOptimizer C 1) calls) ≤ C :=
    runCalls_total_le calls (newCardinalityOptimizer C 1) rfl (Nat.zero_le C)
  refine ⟨hle, ?_⟩
  intro name labels hge hmem
  have hc : (runCalls (newCardinalityOptimizer C 1) calls).seenHashes.contains
      (hashMetric name labels) = false := by simpa using hmem
  have hnlt : ¬ totalCardinality (runCalls (newCardinalityOptimizer C 1) calls) <
      (runCalls (newCardinalityOptimizer C 1) calls).maxCardinality := by
    rw [hmax]; omega
  unfold shouldCollectMetric shouldCollectHash
  simp [hc, hnlt, hrate, hmem]

/-- Witness for C2 at the test's concrete scenario: ceiling 2, two series
admitted, a third distinct series rejected. -/
theorem cardinality_ceiling_no_sampling_witness :
    (shouldCollectMetric
        (runCalls (newCardinalityOptimizer 2 1)
          [("metric1", [("a", "1")]), ("metric2", [("b", "2")])])
        "metric3" [("c", "3")]).fst = false :=
  (cardinality_ceiling_no_sampling 2
      [("metric1", [("a", "1")]), ("metric2", [("b", "2")])]).2
    "metric3" [("c", "3")] (by decide) (by decide)

/-! ### Lemmas: collector registry -/

lemma runEntry_name (e : RegEntry) : (runEntry e).name = e.name := by
  unfold runEntry; split <;> rfl

lemma collectAll_snd (entries : List RegEntry) :
    (collectAll entries).snd = entries.map runEntry := by
  unfold collectAll; split_ifs <;> rfl

lemma collectErrors_cons (e : RegEntry) (es : List RegEntry) :
    collectErrors (e :: es) =
      if e.enabled then
        match e.outcome with
        | some m => m :: collectErrors es
        | none => collectErrors es
      else collectErrors es := rfl

lemma enabledCount_cons (e : RegEntry) (es : List RegEntry) :
    enabledCount (e :: es) =
      if e.enabled then enabledCount es + 1 else enabledCount es := by
  unfold enabledCount
  rw [List.filter_cons]
  split <;> simp

lemma collectErrors_cons_disabled (e : RegEntry) (es : List RegEntry)
    (he : e.enabled = false) : collectErrors (e :: es) = collectErrors es := by
  rw [collectErrors_cons, he]; simp

lemma collectErrors_cons_ok (e : RegEntry) (es : List RegEntry)
    (he : e.enabled = true) (ho : e.outcome = none) :
    collectErrors (e :: es) = collectErrors es := by
  rw [collectErrors_cons, he, ho]; simp

lemma collectErrors_cons_fail (e : RegEntry) (es : List RegEntry) (m : String)
    (he : e.enabled = true) (ho : e.outcome = some m) :
    collectErrors (e :: es) = m :: collectErrors es := by
  rw [collectErrors_cons, he, ho]; simp

lemma enabledCount_cons_disabled (e : RegEntry) (es : List RegEntry)
    (he : e.enabled = false) : enabledCount (e :: es) = enabledCount es := by
  rw [enabledCount_cons, he]; simp

lemma enabledCount_cons_enabled (e : RegEntry) (es : List RegEntry)
    (he : e.enabled = true) : enabledCount (e :: es) = enabledCount es + 1 := by
  rw [enabledCount_cons, he]; simp

lemma collectErrors_le (entries : List RegEntry) :
    (collectErrors entries).length ≤ enabledCount entries := by
  induction entries with
  | nil => exact Nat.le_refl 0
  | cons e es ih =>
    cases he : e.enabled with
    | false => rw [collectErrors_cons_disabled e es he, enabledCount_cons_disabled e es he]; exact ih
    | true =>
      cases ho : e.outcome with
      | none =>
        rw [collectErrors_cons_ok e es he ho, enabledCount_cons_enabled e es he]
        omega
      | some m =>
        rw [collectErrors_cons_fail e es m he ho, enabledCount_cons_enabled e es he,
          List.length_cons]
        omega

lemma collectErrors_eq_iff (entries : List RegEntry) :
    (collectErrors entries).length = enabledCount entries ↔
      ∀ e ∈ entries, e.enabled = true → e.outcome ≠ none := by
  induction entries with
  | nil => simp [collectErrors, enabledCount]
  | cons e es ih =>
    cases he : e.enabled with
    | false =>
      rw [collectErrors_cons_disabled e es he, enabledCount_cons_disabled e es he, ih]
      constructor
      · intro h x hx hxe
        rcases List.mem_cons.mp hx with hx1 | hx2
        · subst hx1; rw [he] at hxe; cases hxe
        · exact h x hx2 hxe
      · intro h x hx hxe
        exact h x (List.mem_cons_of_mem e hx) hxe
    | true =>
      cases ho : e.outcome with
      | none =>
        rw [collectErrors_cons_ok e es he ho, enabledCount_cons_enabled e es he]
        constructor
        · intro h
          exact absurd h (by have := collectErrors_le es; omega)
        · intro h
          exact absurd ho (h e (List.mem_cons_self e es) he)
      | some m =>
        rw [collectErrors_cons_fail e es m he ho, enabledCount_cons_enabled e es he,
          List.length_cons, Nat.add_right_cancel_iff, ih]
        constructor
        · intro h x hx hxe
          rcases List.mem_cons.mp hx with hx1 | hx2
          · subst hx1; simp [ho]
          · exact h x hx2 hxe
        · intro h x hx hxe
          exact h x (List.mem_cons_of_mem e hx) hxe

lemma lookup_getStats (entries : List RegEntry)
    (hnd : (entries.map RegEntry.name).Nodup) :
    ∀ e ∈ entries,
      (getStats (entries.map runEntry)).lookup e.name = some (runEntry e).state := by
  induction entries with
  | nil => intro e he; cases he
  | cons a as ih =>
    intro e he
    have hnd1 : a.name ∉ as.map RegEntry.name := by
      simp only [List.map_cons, List.nodup_cons] at hnd; exact hnd.1
    have hnd2 : (as.map RegEntry.name).Nodup := by
      simp only [List.map_cons, List.nodup_cons] at hnd; exact hnd.2
    rcases List.mem_cons.mp he with he1 | he2
    · subst he1
      simp [getStats, List.lookup, runEntry_name]
    · have hne : e.name ≠ a.name := by
        intro hcontra
        exact hnd1 (hcontra ▸ List.mem_map_of_mem RegEntry.name he2)
      have hbeq : (e.name == a.name) = false := by
        exact beq_eq_false_iff_ne.mpr hne
      simp only [getStats, List.map_cons, List.lookup, runEntry_name, hbeq]
      exact ih hnd2 e he2

/-- Claim C1: `CollectAll` returns a non-nil aggregate error exactly when every
enabled collector failed on the pass; each failing collector's error is
recorded in its state (with the consecutive-error counter advanced) and is
retrievable through `GetStats`, while a succeeding collector's state shows a
reset consecutive-error counter. -/
theorem registry_collectAll_spec (entries : List RegEntry)
    (hen : ∃ e ∈ entries, e.enabled = true)
    (hnd : (entries.map RegEntry.name).Nodup) :
    ((collectAll entries).fst ≠ none ↔
      ∀ e ∈ entries, e.enabled = true → e.outcome ≠ none) ∧
    (∀ e ∈ entries, e.enabled = true → ∀ m, e.outcome = some m →
      ∃ st, (getStats (collectAll entries).snd).lookup e.name = some st ∧
        st.lastError = some m ∧ st.consecutiveErrors = e.state.consecutiveErrors + 1) ∧
    (∀ e ∈ entries, e.enabled = true → e.outcome = none →
      ∃ st, (getStats (collectAll entries).snd).lookup e.name = some st ∧
        st.consecutiveErrors = 0) := by
  have hpos : 0 < enabledCount entries := by
    obtain ⟨e, he, hee⟩ := hen
    unfold enabledCount
    rw [List.length_pos]
    intro hnil
    have hmem : e ∈ entries.filter (fun e => e.enabled) :=
      List.mem_filter.mpr ⟨he, hee⟩
    rw [hnil] at hmem
    cases hmem
  refine ⟨?_, ?_, ?_⟩
  · unfold collectAll
    split_ifs with hcond
    · simp only [ne_eq, reduceCtorEq, not_false_eq_true, true_iff]
      exact (collectErrors_eq_iff entries).mp hcond.2
    · have hne : ¬ (collectErrors entries).length = enabledCount entries :=
        fun h => hcond ⟨hpos, h⟩
      simp only [ne_eq, not_true_eq_false, false_iff, not_forall]
      have hx := (not_iff_not.mpr (collectErrors_eq_iff entries)).mp hne
      push_neg at hx
      obtain ⟨e, he, hee, ho⟩ := hx
      exact ⟨e, he, hee, by simp [ho]⟩
  · intro e he hee m hm
    refine ⟨(runEntry e).state, ?_, ?_⟩
    · rw [collectAll_snd]
      exact lookup_getStats entries hnd e he
    · simp [runEntry, hee, updateState, hm]
  · intro e he hee hm
    refine ⟨(runEntry e).state, ?_, ?_⟩
    · rw [collectAll_snd]
      exact lookup_getStats entries hnd e he
    · simp [runEntry, hee, updateState, hm]

/-- Witness for C1 at the spec's three-collector scenario: the failing
collector's error is recorded and retrievable while the pass aggregates no
error. -/
theorem registry_collectAll_spec_witness :
    ∃ st, (getStats (collectAll demoEntries).snd).lookup "failing" = some st ∧
      st.lastError = some "boom" ∧ st.consecutiveErrors = 0 + 1 :=
  (registry_collectAll_spec demoEntries (by decide) (by decide)).2.1
    ⟨"failing", true, some "boom", ⟨"failing", true, none, 0⟩⟩
    (by decide) rfl "boom" rfl

/-- Claim C8 counterexample: a pass on which the only enabled collector fails
makes `CollectAll` return a non-nil aggregate error, yet the metrics handler
with an uncancelled request context serves the metrics page rather than
surfacing any failure to the scrape caller. -/
theorem metricsHandler_hard_failure_cex :
    (collectAll [⟨"only", true, some "boom", ⟨"only", true, none, 0⟩⟩]).fst.isSome = true ∧
    metricsHandler none none none true
      (collectAll [⟨"only", true, some "boom", ⟨"only", true, none, 0⟩⟩]).fst =
      MetricsResponse.served := by
  decide

/-- Claim C8 as amended: the metrics handler never surfaces a failure because
of a `CollectAll` error alone — with an uncancelled request context it serves
whatever metrics exist, whatever `CollectAll` returned; a 408 failure is
produced exactly when the request context reports cancellation at one of the
handler's checkpoints (before collection, on a collection error, or after
collection). -/
theorem metricsHandler_serves_unless_cancelled :
    (∀ (registryPresent : Bool) (collectErr : Option String),
      metricsHandler none none none registryPresent collectErr =
        MetricsResponse.served) ∧
    (∀ (e0 e1 e2 : Option CtxErr) (registryPresent : Bool) (collectErr : Option String),
      metricsHandler e0 e1 e2 registryPresent collectErr =
          MetricsResponse.cancelled408 ↔
        (e0.isSome = true ∨
          (registryPresent = true ∧ collectErr.isSome = true ∧
            e1 = some CtxErr.canceled) ∨
          e2.isSome = true)) := by
  constructor
  · intro r err; simp [metricsHandler]
  · intro e0 e1 e2 r err
    unfold metricsHandler
    split_ifs with h1 h2 h3 <;>
      simp_all [Bool.and_eq_true, decide_eq_true_eq]

/-- Claim C10: the readiness handler on an uncancelled request returns
503 "Server is shutting down" whenever the shutdown flag is set; otherwise,
with a registry present and no enabled collector, 503 "No collectors
enabled"; in every other case (no registry, or some enabled collector)
200 "Ready". -/
theorem handleReady_spec (sd : Bool)
    (registry : Option (List (String × CollectorState))) :
    (sd = true → handleReady false false sd registry = (503, "Server is shutting down")) ∧
    (sd = false → ∀ stats, registry = some stats →
      (∀ p ∈ stats, p.2.enabled = false) →
      handleReady false false sd registry = (503, "No collectors enabled")) ∧
    (sd = false → registry = none →
      handleReady false false sd registry = (200, "Ready")) ∧
    (sd = false → ∀ stats, registry = some stats →
      (∃ p ∈ stats, p.2.enabled = true) →
      handleReady false false sd registry = (200, "Ready")) := by
  refine ⟨?_, ?_, ?_, ?_⟩
  · intro h; subst h; rfl
  · intro h stats hr hall
    subst h; subst hr
    have hany : stats.any (fun p => p.2.enabled) = false :=
      List.any_eq_false.mpr (fun p hp => by simp [hall p hp])
    simp [handleReady, hany]
  · intro h hr
    subst h; subst hr; rfl
  · intro h stats hr hsome
    subst h; subst hr
    have hany : stats.any (fun p => p.2.enabled) = true :=
      List.any_eq_true.mpr (by obtain ⟨p, hp, hpe⟩ := hsome; exact ⟨p, hp, by simp [hpe]⟩)
    simp [handleReady, hany]

/-- Witness for C10: shutdown flag set gives 503, and a registry with one
enabled collector, no shutdown, gives 200 Ready. -/
theorem handleReady_spec_witness :
    handleReady false false true (some [("nodes", ⟨"nodes", true, none, 0⟩)]) =
      (503, "Server is shutting down") ∧
    handleReady false false false (some [("nodes", ⟨"nodes", true, none, 0⟩)]) =
      (200, "Ready") :=
  ⟨(handleReady_spec true (some [("nodes", ⟨"nodes", true, none, 0⟩)])).1 rfl,
   (handleReady_spec false (some [("nodes", ⟨"nodes", true, none, 0⟩)])).2.2.2 rfl
     [("nodes", ⟨"nodes", true, none, 0⟩)] rfl (by decide)⟩

/-- Claim C9 counterexample: with a partition whose reported node total is the
(type-representable) value -1 and stats present, `publishPartitionMetrics`
takes the unguarded branch and publishes the negative value -1 as the
nodes-allocated gauge, so the gauge is not never-negative over every input. -/
theorem partition_nodes_allocated_negative_cex :
    allocatedNodesGauge ⟨some (-1), none⟩ (some ⟨0, 0, 0⟩) = -1 ∧
    allocatedNodesGauge ⟨some (-1), none⟩ (some ⟨0, 0, 0⟩) < 0 := by
  decide

/-- Claim C9 as amended: provided the partition's reported node total is
non-negative (as every real node count is), the nodes-allocated gauge is
non-negative — the subtraction total minus idle minus down is clamped at
zero — and the CPUs-idle gauge (total minus allocated, clamped at zero) is
non-negative for every input unconditionally. -/
theorem partition_gauges_nonneg (p : PartitionInput)
    (stats : Option PartitionStatsGo) (h : ∀ n ∈ p.nodesTotal, 0 ≤ n) :
    0 ≤ allocatedNodesGauge p stats ∧ 0 ≤ idleCPUsGauge p stats := by
  have htot : 0 ≤ p.nodesTotal.getD 0 := by
    cases hn : p.nodesTotal with
    | none => simp
    | some n => simpa using h n (by simp [hn])
  constructor
  · cases stats with
    | none => simpa [allocatedNodesGauge] using htot
    | some st =>
      simp only [allocatedNodesGauge, clampNonneg]
      split_ifs <;> omega
  · unfold idleCPUsGauge clampNonneg
    split_ifs <;> omega

/-- Witness for C9: a partition with non-negative totals where both
subtractions underflow and are clamped to zero. -/
theorem partition_gauges_nonneg_witness :
    0 ≤ allocatedNodesGauge ⟨some 10, some 64⟩ (some ⟨20, 30, 100⟩) ∧
    0 ≤ idleCPUsGauge ⟨some 10, some 64⟩ (some ⟨20, 30, 100⟩) :=
  partition_gauges_nonneg ⟨some 10, some 64⟩ (some ⟨20, 30, 100⟩) (by decide)

/-! ### Lemmas: cache store -/

lemma set_maxSize {α : Type} (s : CacheStore α) (now : Nat) (k : String) (v : α)
    (ttl : Nat) : (s.set now k v ttl).maxSize = s.maxSize := by
  simp only [CacheStore.set]
  split_ifs <;> rfl

lemma get_snd_maxSize {α : Type} (s : CacheStore α) (now : Nat) (k : String) :
    ((s.get now k).2).maxSize = s.maxSize := by
  cases hf : s.entries.find? (fun e => e.key == k) with
  | none => simp [CacheStore.get, hf]
  | some e =>
    simp only [CacheStore.get, hf]
    split_ifs <;> rfl

lemma applyOp_maxSize {α : Type} (s : CacheStore α) (op : CacheOp α) :
    (applyOp s op).maxSize = s.maxSize := by
  cases op with
  | set now k v => exact set_maxSize s now k v 0
  | setWithTTL now k v ttl => exact set_maxSize s now k v ttl
  | get now k => exact get_snd_maxSize s now k
  | delete k => rfl
  | clear => rfl

lemma pickLRU_isSome {α : Type} (es : List (CacheEntry α)) (h : es ≠ []) :
    ∃ b, pickLRU es = some b := by
  cases es with
  | nil => exact absurd rfl h
  | cons e es' =>
    show ∃ b, (match pickLRU es' with
      | none => some e
      | some b => if lruBefore b e then some b else some e) = some b
    cases hp : pickLRU es' with
    | none => exact ⟨e, rfl⟩
    | some b =>
      by_cases hb : lruBefore b e = true
      · exact ⟨b, by simp [hb]⟩
      · exact ⟨e, by simp [hb]⟩

lemma pickLRU_mem {α : Type} (es : List (CacheEntry α)) (b : CacheEntry α)
    (h : pickLRU es = some b) : b ∈ es := by
  induction es with
  | nil => cases h
  | cons e es' ih =>
    have h' : (match pickLRU es' with
      | none => some e
      | some c => if lruBefore c e then some c else some e) = some b := h
    cases hp : pickLRU es' with
    | none =>
      rw [hp] at h'
      injection h' with h2
      exact h2 ▸ List.mem_cons_self e es'
    | some c =>
      rw [hp] at h'
      dsimp only at h'
      by_cases hb : lruBefore c e = true
      · rw [if_pos hb] at h'
        injection h' with h2
        exact List.mem_cons_of_mem e (ih (h2 ▸ hp))
      · rw [if_neg hb] at h'
        injection h' with h2
        exact h2 ▸ List.mem_cons_self e es'

lemma selectVictim_mem {α : Type} (now : Nat) (es : List (CacheEntry α))
    (v' : CacheEntry α) (h : selectVictim now es = some v') : v' ∈ es := by
  unfold selectVictim at h
  cases hp : pickLRU (liveEntries now es) with
  | some e =>
    rw [hp] at h
    injection h with h2
    have := pickLRU_mem _ e hp
    exact h2 ▸ (List.mem_filter.mp this).1
  | none =>
    rw [hp] at h
    exact pickLRU_mem es v' h

lemma selectVictim_isSome {α : Type} (now : Nat) (es : List (CacheEntry α))
    (h : es ≠ []) : ∃ e, selectVictim now es = some e := by
  unfold selectVictim
  cases hp : pickLRU (liveEntries now es) with
  | some e => exact ⟨e, rfl⟩
  | none =>
    obtain ⟨b, hb⟩ := pickLRU_isSome es h
    exact ⟨b, hb⟩

lemma eraseKey_sublist {α : Type} (es : List (CacheEntry α)) (k : String) :
    (eraseKey es k).Sublist es := by
  induction es with
  | nil => simp [eraseKey]
  | cons e es' ih =>
    simp only [eraseKey]
    split_ifs
    · exact List.sublist_cons_self e es'
    · exact List.Sublist.cons₂ e ih

lemma eraseKey_length_le {α : Type} (es : List (CacheEntry α)) (k : String) :
    (eraseKey es k).length ≤ es.length :=
  (eraseKey_sublist es k).length_le

lemma eraseKey_length_of_mem {α : Type} (es : List (CacheEntry α)) (k : String)
    (h : ∃ e ∈ es, e.key = k) : (eraseKey es k).length + 1 = es.length := by
  induction es with
  | nil => obtain ⟨e, he, _⟩ := h; cases he
  | cons e es' ih =>
    simp only [eraseKey]
    split_ifs with hk
    · simp
    · obtain ⟨x, hx, hxk⟩ := h
      rcases List.mem_cons.mp hx with h1 | h2
      · exact absurd (h1 ▸ hxk) hk
      · have := ih ⟨x, h2, hxk⟩
        simp only [List.length_cons]
        omega

lemma eraseKey_keys_nodup {α : Type} (es : List (CacheEntry α)) (k : String)
    (h : (es.map CacheEntry.key).Nodup) :
    ((eraseKey es k).map CacheEntry.key).Nodup :=
  List.Nodup.sublist ((eraseKey_sublist es k).map CacheEntry.key) h

lemma eraseKey_no_key {α : Type} (es : List (CacheEntry α)) (k : String)
    (h : (es.map CacheEntry.key).Nodup) : ∀ e ∈ eraseKey es k, e.key ≠ k := by
  induction es with
  | nil => intro e he; cases he
  | cons a es' ih =>
    simp only [List.map_cons, List.nodup_cons] at h
    intro e he
    revert he
    simp only [eraseKey]
    split_ifs with hk
    · intro he hek
      have hmem : e.key ∈ es'.map CacheEntry.key := List.mem_map_of_mem CacheEntry.key he
      rw [hek, ← hk] at hmem
      exact h.1 hmem
    · intro he
      rcases List.mem_cons.mp he with h1 | h2
      · exact h1 ▸ hk
      · exact ih h.2 e h2

lemma evictIfFull_length_lt {α : Type} (s : CacheStore α) (now : Nat)
    (hmax : 1 ≤ s.maxSize) (hlen : s.entries.length ≤ s.maxSize) :
    (evictIfFull s now).length + 1 ≤ s.maxSize := by
  unfold evictIfFull
  split_ifs with hfull
  · have hlen2 : s.entries.length = s.maxSize := Nat.le_antisymm hlen hfull
    have hne : s.entries ≠ [] := by
      intro h0
      rw [h0] at hlen2
      simp at hlen2
      omega
    obtain ⟨vic, hv⟩ := selectVictim_isSome now s.entries hne
    rw [hv]
    dsimp only
    have hvm : vic ∈ s.entries := selectVictim_mem now s.entries vic hv
    have := eraseKey_length_of_mem s.entries vic.key ⟨vic, hvm, rfl⟩
    omega
  · omega

lemma set_entries_length_le {α : Type} (s : CacheStore α) (now : Nat) (k : String)
    (v : α) (ttl : Nat) (hmax : 1 ≤ s.maxSize) (hlen : s.entries.length ≤ s.maxSize) :
    (s.set now k v ttl).entries.length ≤ s.maxSize := by
  simp only [CacheStore.set]
  split_ifs with hany
  · simpa using hlen
  · have := evictIfFull_length_lt s now hmax hlen
    simp only [List.length_append, List.length_cons, List.length_nil]
    omega

lemma get_snd_entries_length_le {α : Type} (s : CacheStore α) (now : Nat)
    (k : String) : ((s.get now k).2).entries.length ≤ s.entries.length := by
  cases hf : s.entries.find? (fun e => e.key == k) with
  | none => simp [CacheStore.get, hf]
  | some e =>
    simp only [CacheStore.get, hf]
    split_ifs
    · simp
    · simpa using eraseKey_length_le s.entries k

lemma applyOp_entries_length_le {α : Type} (s : CacheStore α) (op : CacheOp α)
    (hmax : 1 ≤ s.maxSize) (hlen : s.entries.length ≤ s.maxSize) :
    (applyOp s op).entries.length ≤ s.maxSize := by
  cases op with
  | set now k v => exact set_entries_length_le s now k v 0 hmax hlen
  | setWithTTL now k v ttl => exact set_entries_length_le s now k v ttl hmax hlen
  | get now k => exact le_trans (get_snd_entries_length_le s now k) hlen
  | delete k =>
    exact le_trans (by simpa [CacheStore.delete] using eraseKey_length_le s.entries k) hlen
  | clear => simp [applyOp, CacheStore.clear]

lemma runOps_entries_length_le {α : Type} :
    ∀ (ops : List (CacheOp α)) (s : CacheStore α), 1 ≤ s.maxSize →
      s.entries.length ≤ s.maxSize → (runOps s ops).entries.length ≤ s.maxSize := by
  intro ops
  induction ops with
  | nil => intro s _ h; exact h
  | cons op ops' ih =>
    intro s hmax hlen
    show (runOps (applyOp s op) ops').entries.length ≤ s.maxSize
    have h1 := ih (applyOp s op)
      (by rw [applyOp_maxSize]; exact hmax)
      (by rw [applyOp_maxSize]; exact applyOp_entries_length_le s op hmax hlen)
    rwa [applyOp_maxSize] at h1

/-- Claim C5 counterexample: on a zero-capacity store — which the spec calls a
valid if unusual configuration — a single `Set` leaves one entry in the store,
so the size exceeds the configured maximum of zero; the promise to evict an
existing entry before admitting the new one is empty when there is no
existing entry. -/
theorem cache_size_bound_zero_capacity_cex :
    (runOps (newCacheStore String "s" 0 30) [CacheOp.set 0 "k" "v"]).size = 1 ∧
    (newCacheStore String "s" 0 30).maxSize = 0 := by
  decide

/-- Claim C5 as amended: for every store created with a maximum entry count of
at least one, no sequence of `Set`, `SetWithTTL`, `Get`, `Delete`, `Clear`
operations ever drives the entry count above the maximum — `Set` on a full
store evicts an existing entry before admitting the new one. -/
theorem cache_size_bound (α : Type) (nm : String) (maxEntries d : Nat)
    (hmax : 1 ≤ maxEntries) (ops : List (CacheOp α)) :
    (runOps (newCacheStore α nm maxEntries d) ops).size ≤ maxEntries := by
  have h := runOps_entries_length_le ops (newCacheStore α nm maxEntries d)
    (by simpa [newCacheStore] using hmax) (by simp [newCacheStore])
  simpa [CacheStore.size, newCacheStore] using h

/-- Witness for C5: the LRU test's operation sequence on a two-entry store
stays within the bound. -/
theorem cache_size_bound_witness :
    (runOps (newCacheStore String "small-store" 2 30)
      [CacheOp.setWithTTL 0 "key1" "value1" 30, CacheOp.setWithTTL 0 "key2" "value2" 30,
       CacheOp.get 1 "key1", CacheOp.setWithTTL 1 "key3" "value3" 30]).size ≤ 2 :=
  cache_size_bound String "small-store" 2 30 (by decide)
    [CacheOp.setWithTTL 0 "key1" "value1" 30, CacheOp.setWithTTL 0 "key2" "value2" 30,
     CacheOp.get 1 "key1", CacheOp.setWithTTL 1 "key3" "value3" 30]

/-! ### Lemmas: cache lookup after insertion -/

lemma find?_map_keyPreserving {α : Type} (l : List (CacheEntry α)) (k : String)
    (g : CacheEntry α → CacheEntry α) (hg : ∀ e, (g e).key = e.key) :
    (l.map (fun e => if e.key = k then g e else e)).find? (fun e => e.key == k) =
      Option.map g (l.find? (fun e => e.key == k)) := by
  induction l with
  | nil => rfl
  | cons e l' ih =>
    by_cases hk : e.key = k
    · have h1 : ((g e).key == k) = true := by simp [hg, hk]
      have h2 : (e.key == k) = true := by simp [hk]
      simp [List.find?_cons, h1, h2, hk]
    · have h1 : ((if e.key = k then g e else e).key == k) = false := by
        rw [if_neg hk]
        exact beq_eq_false_iff_ne.mpr hk
      have h2 : (e.key == k) = false := beq_eq_false_iff_ne.mpr hk
      simp [List.find?_cons, h1, h2, ih]

lemma find?_append_left_none {α : Type} (l l' : List (CacheEntry α)) (k : String)
    (h : ∀ e ∈ l, (e.key == k) = false) :
    (l ++ l').find? (fun e => e.key == k) = l'.find? (fun e => e.key == k) := by
  induction l with
  | nil => rfl
  | cons e l0 ih =>
    have he := h e (List.mem_cons_self e l0)
    simp only [List.cons_append, List.find?_cons, he]
    exact ih (fun x hx => h x (List.mem_cons_of_mem e hx))

lemma map_keys_of_keyPreserving {α : Type} (l : List (CacheEntry α)) (k : String)
    (g : CacheEntry α → CacheEntry α) (hg : ∀ e, (g e).key = e.key) :
    (l.map (fun e => if e.key = k then g e else e)).map CacheEntry.key =
      l.map CacheEntry.key := by
  rw [List.map_map]
  apply List.map_congr_left
  intro e _
  show (if e.key = k then g e else e).key = e.key
  split_ifs
  · exact hg e
  · rfl

lemma keys_append_new_nodup {α : Type} (l : List (CacheEntry α)) (k : String)
    (v : α) (exp la sq : Nat) (hsub : ∀ e ∈ l, e.key ≠ k)
    (hnd : (l.map CacheEntry.key).Nodup) :
    ((l ++ [(⟨k, v, exp, la, sq⟩ : CacheEntry α)]).map CacheEntry.key).Nodup := by
  rw [List.map_append, List.nodup_append]
  refine ⟨hnd, by simp, ?_⟩
  intro a ha hb
  simp only [List.map_cons, List.map_nil, List.mem_singleton] at hb
  obtain ⟨e, he, hek⟩ := List.mem_map.mp ha
  exact hsub e he (by rw [hek, hb])

lemma set_keys_nodup {α : Type} (s : CacheStore α) (now : Nat) (k : String)
    (v : α) (ttl : Nat) (h : (s.entries.map CacheEntry.key).Nodup) :
    ((s.set now k v ttl).entries.map CacheEntry.key).Nodup := by
  simp only [CacheStore.set]
  split_ifs with hany
  · rw [map_keys_of_keyPreserving s.entries k (fun e => { e with value := v, expiresAt := now + resolveTTL s ttl, lastAccessed := now }) (fun e => rfl)]
    exact h
  · have hanyf : s.entries.any (fun e => e.key == k) = false := by
      cases hx : s.entries.any (fun e => e.key == k)
      · rfl
      · exact absurd hx hany
    have hnok : ∀ e ∈ s.entries, e.key ≠ k := by
      intro e he
      have := List.any_eq_false.mp hanyf e he
      simpa using this
    have hsubk : ∀ e ∈ evictIfFull s now, e.key ≠ k := by
      intro e he
      apply hnok
      revert he
      unfold evictIfFull
      split_ifs with hfull
      · cases hv : selectVictim now s.entries with
        | some vic =>
          intro he
          exact (eraseKey_sublist s.entries vic.key).subset he
        | none => exact id
      · exact id
    have hndk : ((evictIfFull s now).map CacheEntry.key).Nodup := by
      unfold evictIfFull
      split_ifs with hfull
      · cases hv : selectVictim now s.entries with
        | some vic => exact eraseKey_keys_nodup s.entries vic.key h
        | none => exact h
      · exact h
    exact keys_append_new_nodup (evictIfFull s now) k v _ _ _ hsubk hndk

lemma findEntry_set {α : Type} (s : CacheStore α) (now : Nat) (k : String) (v : α)
    (T : Nat) (hT : T ≠ 0) :
    ∃ sq, findEntry (s.set now k v T) k = some ⟨k, v, now + T, now, sq⟩ := by
  have hres : resolveTTL s T = T := if_neg hT
  simp only [findEntry, CacheStore.set, hres]
  by_cases hany : s.entries.any (fun e => e.key == k) = true
  · rw [if_pos hany]
    have hsome : (s.entries.find? (fun e => e.key == k)).isSome = true :=
      List.find?_isSome.mpr (List.any_eq_true.mp hany)
    obtain ⟨e0, he0⟩ := Option.isSome_iff_exists.mp hsome
    have he0k : e0.key = k := by
      have := List.find?_some he0
      simpa using this
    rw [find?_map_keyPreserving s.entries k (fun e => { e with value := v, expiresAt := now + T, lastAccessed := now }) (fun e => rfl), he0]
    exact ⟨e0.seq, by simp [he0k]⟩
  · rw [if_neg hany]
    have hanyf : s.entries.any (fun e => e.key == k) = false := by
      cases hx : s.entries.any (fun e => e.key == k)
      · rfl
      · exact absurd hx hany
    have hnok : ∀ e ∈ s.entries, (e.key == k) = false := by
      intro e he
      have := List.any_eq_false.mp hanyf e he
      simpa using this
    have hsubk : ∀ e ∈ evictIfFull s now, (e.key == k) = false := by
      intro e he
      apply hnok
      revert he
      unfold evictIfFull
      split_ifs with hfull
      · cases hv : selectVictim now s.entries with
        | some vic =>
          intro he
          exact (eraseKey_sublist s.entries vic.key).subset he
        | none => exact id
      · exact id
    refine ⟨s.seqCounter, ?_⟩
    rw [find?_append_left_none _ _ k hsubk]
    simp [List.find?_cons]

/-- Claim C4: after `Set(k, v, T)` with a positive TTL, a `Get(k)` at any
instant strictly before the expiry returns the value, and a `Get(k)` at any
instant from the expiry on reports not-found and purges the entry from the
store, even though the key was never deleted. -/
theorem cache_ttl_expiry (α : Type) (s : CacheStore α) (k : String) (v : α)
    (T now now1 now2 : Nat) (hU : (s.entries.map CacheEntry.key).Nodup)
    (hT : 0 < T) (h1 : now1 < now + T) (h2 : now + T ≤ now2) :
    ((s.set now k v T).get now1 k).fst = some v ∧
    ((s.set now k v T).get now2 k).fst = none ∧
    ∀ e ∈ ((s.set now k v T).get now2 k).snd.entries, e.key ≠ k := by
  obtain ⟨sq, hfind⟩ := findEntry_set s now k v T (by omega)
  have hfind' : (s.set now k v T).entries.find? (fun e => e.key == k) =
      some ⟨k, v, now + T, now, sq⟩ := hfind
  have hexp : ¬ (now2 < now + T) := by omega
  refine ⟨?_, ?_, ?_⟩
  · simp [CacheStore.get, hfind', h1]
  · simp [CacheStore.get, hfind', hexp]
  · intro e he
    have hnd' : ((s.set now k v T).entries.map CacheEntry.key).Nodup :=
      set_keys_nodup s now k v T hU
    have hsnd : ((s.set now k v T).get now2 k).snd.entries =
        eraseKey (s.set now k v T).entries k := by
      simp [CacheStore.get, hfind', hexp]
    rw [hsnd] at he
    exact eraseKey_no_key _ k hnd' e he

/-! ### Lemmas: LRU eviction order -/

lemma pickLRU_cons {α : Type} (e : CacheEntry α) (es : List (CacheEntry α)) :
    pickLRU (e :: es) =
      match pickLRU es with
      | none => some e
      | some b => if lruBefore b e then some b else some e := rfl

lemma map_touch_not_mem {α : Type} (l : List (CacheEntry α)) (k : String)
    (g : CacheEntry α → CacheEntry α) (h : ∀ e ∈ l, e.key ≠ k) :
    l.map (fun e => if e.key = k then g e else e) = l := by
  induction l with
  | nil => rfl
  | cons a l0 ih =>
    simp only [List.map_cons]
    rw [if_neg (h a (List.mem_cons_self a l0)),
      ih (fun e he => h e (List.mem_cons_of_mem a he))]

lemma freshList_map_key {α : Type} (now ttl : Nat) (v : α) :
    ∀ (ks : List String) (sq : Nat),
      (freshList now ttl v sq ks).map CacheEntry.key = ks := by
  intro ks
  induction ks with
  | nil => intro sq; rfl
  | cons k ks' ih =>
    intro sq
    simp only [freshList, List.map_cons, List.cons.injEq]
    exact ⟨trivial, ih (sq + 1)⟩

lemma freshList_length {α : Type} (now ttl : Nat) (v : α) :
    ∀ (ks : List String) (sq : Nat),
      (freshList now ttl v sq ks).length = ks.length := by
  intro ks
  induction ks with
  | nil => intro sq; rfl
  | cons k ks' ih =>
    intro sq
    simp only [freshList, List.length_cons, ih (sq + 1)]

lemma freshList_key_mem {α : Type} (now ttl : Nat) (v : α) (ks : List String)
    (sq : Nat) (e : CacheEntry α) (he : e ∈ freshList now ttl v sq ks) :
    e.key ∈ ks := by
  have hm := List.mem_map_of_mem CacheEntry.key he
  rwa [freshList_map_key now ttl v ks sq] at hm

lemma freshList_any_false {α : Type} (now ttl : Nat) (v : α) (ks : List String)
    (sq : Nat) (k : String) (hk : k ∉ ks) :
    (freshList now ttl v sq ks).any (fun e => e.key == k) = false := by
  apply List.any_eq_false.mpr
  intro e he
  simp only [beq_iff_eq]
  intro hc
  exact hk (hc ▸ freshList_key_mem now ttl v ks sq e he)

lemma freshList_expiresAt {α : Type} (now ttl : Nat) (v : α) :
    ∀ (ks : List String) (sq : Nat), ∀ e ∈ freshList now ttl v sq ks,
      e.expiresAt = now + ttl := by
  intro ks
  induction ks with
  | nil => intro sq e he; cases he
  | cons k ks' ih =>
    intro sq e he
    rcases List.mem_cons.mp he with h1 | h2
    · rw [h1]
    · exact ih (sq + 1) e h2

lemma liveEntries_freshList {α : Type} (now' now ttl : Nat) (v : α)
    (ks : List String) (sq : Nat) (h : now' < now + ttl) :
    liveEntries now' (freshList now ttl v sq ks) = freshList now ttl v sq ks := by
  apply List.filter_eq_self.mpr
  intro e he
  simp only [decide_eq_true_eq]
  rw [freshList_expiresAt now ttl v ks sq e he]
  exact h

lemma pickLRU_freshList {α : Type} (now ttl : Nat) (v : α) :
    ∀ (ks : List String) (k : String) (sq : Nat),
      pickLRU (freshList now ttl v sq (k :: ks)) =
        some ⟨k, v, now + ttl, now, sq⟩ := by
  intro ks
  induction ks with
  | nil => intro k sq; rfl
  | cons k2 ks' ih =>
    intro k sq
    have hF : freshList now ttl v sq (k :: k2 :: ks') =
        (⟨k, v, now + ttl, now, sq⟩ : CacheEntry α) ::
          freshList now ttl v (sq + 1) (k2 :: ks') := rfl
    rw [hF, pickLRU_cons, ih k2 (sq + 1)]
    have hlb : lruBefore (⟨k2, v, now + ttl, now, sq + 1⟩ : CacheEntry α)
        ⟨k, v, now + ttl, now, sq⟩ = false := by
      simp [lruBefore]
    simp [hlb]

/-- `Set` of a fresh key on a store strictly below capacity: append the entry. -/
lemma set_eq_of_new_notfull {α : Type} (s : CacheStore α) (now : Nat) (k : String)
    (v : α) (ttl : Nat) (hany : s.entries.any (fun e => e.key == k) = false)
    (hnotfull : ¬ s.maxSize ≤ s.entries.length) :
    s.set now k v ttl =
      { s with entries := s.entries ++ [⟨k, v, now + resolveTTL s ttl, now, s.seqCounter⟩],
               seqCounter := s.seqCounter + 1 } := by
  simp only [CacheStore.set]
  rw [if_neg (by simp [hany])]
  unfold evictIfFull
  rw [if_neg hnotfull]

/-- `Set` of a fresh key on a full store: evict the victim, then append. -/
lemma set_eq_of_new_full {α : Type} (s : CacheStore α) (now : Nat) (k : String)
    (v : α) (ttl : Nat) (hany : s.entries.any (fun e => e.key == k) = false)
    (hfull : s.maxSize ≤ s.entries.length) (vic : CacheEntry α)
    (hvic : selectVictim now s.entries = some vic) :
    s.set now k v ttl =
      { s with entries := eraseKey s.entries vic.key ++
          [⟨k, v, now + resolveTTL s ttl, now, s.seqCounter⟩],
               seqCounter := s.seqCounter + 1 } := by
  simp only [CacheStore.set]
  rw [if_neg (by simp [hany])]
  unfold evictIfFull
  rw [if_pos hfull, hvic]

/-- `Get` of a live entry: return the value and refresh its last access. -/
lemma get_eq_of_found_live {α : Type} (s : CacheStore α) (now : Nat) (k : String)
    (e : CacheEntry α) (hf : s.entries.find? (fun x => x.key == k) = some e)
    (hlive : now < e.expiresAt) :
    s.get now k = (some e.value,
      { s with hitCount := s.hitCount + 1,
               entries := s.entries.map (fun e2 =>
                 if e2.key = k then { e2 with lastAccessed := now } else e2) }) := by
  simp [CacheStore.get, hf, hlive]

/-- Inserting pairwise-fresh keys into a store with enough room appends the
fresh entries in order and advances the sequence counter. -/
lemma fill_spec {α : Type} (now ttl : Nat) (v : α) :
    ∀ (ks : List String) (s : CacheStore α), ttl ≠ 0 → ks.Nodup →
      (∀ k ∈ ks, ∀ e ∈ s.entries, e.key ≠ k) →
      s.entries.length + ks.length ≤ s.maxSize →
      fillStore s now ttl v ks =
        { s with entries := s.entries ++ freshList now ttl v s.seqCounter ks,
                 seqCounter := s.seqCounter + ks.length } := by
  intro ks
  induction ks with
  | nil =>
    intro s _ _ _ _
    show s = _
    simp [freshList]
  | cons k ks' ih =>
    intro s httl hnd hfresh hlen
    have hnd1 : k ∉ ks' := (List.nodup_cons.mp hnd).1
    have hnd2 : ks'.Nodup := (List.nodup_cons.mp hnd).2
    have hany : s.entries.any (fun e => e.key == k) = false := by
      apply List.any_eq_false.mpr
      intro e he
      simpa using hfresh k (List.mem_cons_self k ks') e he
    have hnotfull : ¬ s.maxSize ≤ s.entries.length := by
      simp only [List.length_cons] at hlen; omega
    have hres : resolveTTL s ttl = ttl := if_neg httl
    have hstep := set_eq_of_new_notfull s now k v ttl hany hnotfull
    rw [hres] at hstep
    show fillStore (s.set now k v ttl) now ttl v ks' = _
    rw [hstep]
    have hfresh' : ∀ k' ∈ ks',
        ∀ e ∈ s.entries ++ [(⟨k, v, now + ttl, now, s.seqCounter⟩ : CacheEntry α)],
          e.key ≠ k' := by
      intro k' hk' e he
      rcases List.mem_append.mp he with h1 | h2
      · exact hfresh k' (List.mem_cons_of_mem k hk') e h1
      · rw [List.mem_singleton] at h2
        rw [h2]
        intro hc
        have hc' : k = k' := hc
        exact hnd1 (hc' ▸ hk')
    have hlen' : (s.entries ++ [(⟨k, v, now + ttl, now, s.seqCounter⟩ : CacheEntry α)]).length
        + ks'.length ≤ s.maxSize := by
      simp only [List.length_append, List.length_cons, List.length_nil]
      simp only [List.length_cons] at hlen
      omega
    rw [ih { s with entries := s.entries ++ [⟨k, v, now + ttl, now, s.seqCounter⟩], seqCounter := s.seqCounter + 1 } httl hnd2 hfresh' hlen']
    congr 1
    · simp [freshList, List.append_assoc]
    · simp only [List.length_cons]
      omega

/-- Filling an (N+1)-key sequence into an empty N-capacity store, all at one
instant with a live TTL, evicts exactly the first-inserted key. -/
lemma lru_insert_evicts_first {α : Type} (v : α) (nm : String) (d T : Nat)
    (k0 klast : String) (rest : List String) (hT : 0 < T)
    (hnd : (k0 :: rest ++ [klast]).Nodup) :
    (fillStore (newCacheStore α nm (rest.length + 1) d) 0 T v
      (k0 :: rest ++ [klast])).entries.map CacheEntry.key = rest ++ [klast] := by
  have hTne : T ≠ 0 := by omega
  have hnd' : ((k0 :: rest) ++ [klast]).Nodup := hnd
  have hndL : (k0 :: rest).Nodup := List.Nodup.of_append_left hnd'
  have hkl : klast ∉ k0 :: rest := by
    intro hc
    exact (List.nodup_append.mp hnd').2.2 hc (by simp)
  have hfill := fill_spec 0 T v (k0 :: rest) (newCacheStore α nm (rest.length + 1) d)
    hTne hndL (by intro k hk e he; exact absurd he (List.not_mem_nil e))
    (by simp [newCacheStore])
  have hfill' : fillStore (newCacheStore α nm (rest.length + 1) d) 0 T v (k0 :: rest) =
      { name := nm, maxSize := rest.length + 1, defaultTTL := d,
        entries := freshList 0 T v 0 (k0 :: rest), seqCounter := rest.length + 1,
        hitCount := 0, missCount := 0 } := by
    rw [hfill]
    simp [newCacheStore]
  have hsplit : fillStore (newCacheStore α nm (rest.length + 1) d) 0 T v
      (k0 :: rest ++ [klast]) =
      (fillStore (newCacheStore α nm (rest.length + 1) d) 0 T v (k0 :: rest)).set
        0 klast v T := by
    show fillStore _ 0 T v ((k0 :: rest) ++ [klast]) = _
    simp [fillStore, List.foldl_append]
  rw [hsplit, hfill']
  have hany : (freshList 0 T v 0 (k0 :: rest) : List (CacheEntry α)).any
      (fun e => e.key == klast) = false :=
    freshList_any_false 0 T v (k0 :: rest) 0 klast hkl
  have hfull : rest.length + 1 ≤ (freshList 0 T v 0 (k0 :: rest) : List (CacheEntry α)).length := by
    rw [freshList_length]
    simp
  have hvic : selectVictim 0 (freshList 0 T v 0 (k0 :: rest) : List (CacheEntry α)) =
      some ⟨k0, v, 0 + T, 0, 0⟩ := by
    unfold selectVictim
    rw [liveEntries_freshList 0 0 T v (k0 :: rest) 0 (by omega),
      pickLRU_freshList 0 T v rest k0 0]
  rw [set_eq_of_new_full _ 0 klast v T hany hfull _ hvic]
  have hek : eraseKey (freshList 0 T v 0 (k0 :: rest) : List (CacheEntry α)) k0 =
      freshList 0 T v 1 rest := by
    show eraseKey ((⟨k0, v, 0 + T, 0, 0⟩ : CacheEntry α) :: freshList 0 T v 1 rest) k0 = _
    simp [eraseKey]
  dsimp only
  rw [hek, List.map_append, freshList_map_key]
  rfl

/-- If the first-inserted key is read (promoting it) before the (N+1)th
insert, the second-inserted key is evicted instead, and both the promoted key
and the new key remain retrievable. -/
lemma lru_promote_evicts_second {α : Type} (v : α) (nm : String) (d T : Nat)
    (k0 k1 klast : String) (rest : List String) (hT : 1 < T)
    (hnd : (k0 :: k1 :: rest ++ [klast]).Nodup) :
    ((((fillStore (newCacheStore α nm (rest.length + 2) d) 0 T v
        (k0 :: k1 :: rest)).get 1 k0).snd.set 1 klast v T).entries.map CacheEntry.key =
      k0 :: rest ++ [klast]) ∧
    (((((fillStore (newCacheStore α nm (rest.length + 2) d) 0 T v
        (k0 :: k1 :: rest)).get 1 k0).snd.set 1 klast v T).get 1 k0).fst = some v) ∧
    (((((fillStore (newCacheStore α nm (rest.length + 2) d) 0 T v
        (k0 :: k1 :: rest)).get 1 k0).snd.set 1 klast v T).get 1 klast).fst = some v) := by
  have hTne : T ≠ 0 := by omega
  have hnd' : ((k0 :: k1 :: rest) ++ [klast]).Nodup := hnd
  have hndL : (k0 :: k1 :: rest).Nodup := List.Nodup.of_append_left hnd'
  have hkl : klast ∉ k0 :: k1 :: rest := by
    intro hc
    exact (List.nodup_append.mp hnd').2.2 hc (by simp)
  have hk0r : k0 ∉ k1 :: rest := (List.nodup_cons.mp hndL).1
  have hk01 : k0 ≠ k1 := by
    intro hc
    exact hk0r (hc ▸ List.mem_cons_self k1 rest)
  have hk0l : k0 ≠ klast := by
    intro hc
    exact hkl (hc ▸ List.mem_cons_self k0 (k1 :: rest))
  have hkl1 : klast ∉ k1 :: rest := fun hc => hkl (List.mem_cons_of_mem k0 hc)
  have hklr : klast ∉ rest := fun hc => hkl1 (List.mem_cons_of_mem k1 hc)
  have hfill := fill_spec 0 T v (k0 :: k1 :: rest)
    (newCacheStore α nm (rest.length + 2) d) hTne hndL
    (by intro k hk e he; exact absurd he (List.not_mem_nil e))
    (by simp [newCacheStore])
  have hfill' : fillStore (newCacheStore α nm (rest.length + 2) d) 0 T v
      (k0 :: k1 :: rest) =
      { name := nm, maxSize := rest.length + 2, defaultTTL := d,
        entries := freshList 0 T v 0 (k0 :: k1 :: rest), seqCounter := rest.length + 2,
        hitCount := 0, missCount := 0 } := by
    rw [hfill]
    simp [newCacheStore]
  rw [hfill']
  have hfind0 : (freshList 0 T v 0 (k0 :: k1 :: rest) : List (CacheEntry α)).find?
      (fun x => x.key == k0) = some ⟨k0, v, 0 + T, 0, 0⟩ := by
    show ((⟨k0, v, 0 + T, 0, 0⟩ : CacheEntry α) ::
      freshList 0 T v 1 (k1 :: rest)).find? (fun x => x.key == k0) = _
    simp [List.find?_cons]
  rw [get_eq_of_found_live { name := nm, maxSize := rest.length + 2, defaultTTL := d, entries := freshList 0 T v 0 (k0 :: k1 :: rest), seqCounter := rest.length + 2, hitCount := 0, missCount := 0 } 1 k0 ⟨k0, v, 0 + T, 0, 0⟩ hfind0 (by show (1 : Nat) < 0 + T; omega)]
  dsimp only
  have hmap : (freshList 0 T v 0 (k0 :: k1 :: rest) : List (CacheEntry α)).map
      (fun e2 => if e2.key = k0 then { e2 with lastAccessed := 1 } else e2) =
      (⟨k0, v, 0 + T, 1, 0⟩ : CacheEntry α) :: freshList 0 T v 1 (k1 :: rest) := by
    show ((⟨k0, v, 0 + T, 0, 0⟩ : CacheEntry α) ::
      freshList 0 T v 1 (k1 :: rest)).map _ = _
    rw [List.map_cons, map_touch_not_mem _ k0 _
      (fun e he hc => hk0r (hc ▸ freshList_key_mem 0 T v (k1 :: rest) 1 e he))]
    simp
  rw [hmap]
  have hanyE : ((⟨k0, v, 0 + T, 1, 0⟩ : CacheEntry α) ::
      freshList 0 T v 1 (k1 :: rest)).any (fun e => e.key == klast) = false := by
    apply List.any_eq_false.mpr
    intro e he
    simp only [beq_iff_eq]
    rcases List.mem_cons.mp he with h1 | h2
    · rw [h1]
      exact hk0l
    · intro hc
      exact hkl1 (hc ▸ freshList_key_mem 0 T v (k1 :: rest) 1 e h2)
  have hfullE : rest.length + 2 ≤ ((⟨k0, v, 0 + T, 1, 0⟩ : CacheEntry α) ::
      freshList 0 T v 1 (k1 :: rest)).length := by
    simp [freshList_length]
  have hliveE : liveEntries 1 ((⟨k0, v, 0 + T, 1, 0⟩ : CacheEntry α) ::
      freshList 0 T v 1 (k1 :: rest)) =
      (⟨k0, v, 0 + T, 1, 0⟩ : CacheEntry α) :: freshList 0 T v 1 (k1 :: rest) := by
    apply List.filter_eq_self.mpr
    intro e he
    simp only [decide_eq_true_eq]
    rcases List.mem_cons.mp he with h1 | h2
    · rw [h1]
      show (1 : Nat) < 0 + T
      omega
    · rw [freshList_expiresAt 0 T v (k1 :: rest) 1 e h2]
      omega
  have hvicE : selectVictim 1 ((⟨k0, v, 0 + T, 1, 0⟩ : CacheEntry α) ::
      freshList 0 T v 1 (k1 :: rest)) = some ⟨k1, v, 0 + T, 0, 1⟩ := by
    unfold selectVictim
    rw [hliveE, pickLRU_cons, pickLRU_freshList 0 T v rest k1 1]
    dsimp only
    rw [if_pos (by simp [lruBefore])]
  rw [set_eq_of_new_full _ 1 klast v T hanyE hfullE _ hvicE]
  dsimp only
  rw [show resolveTTL { name := nm, maxSize := rest.length + 2, defaultTTL := d, entries := (⟨k0, v, 0 + T, 1, 0⟩ : CacheEntry α) :: freshList 0 T v 1 (k1 :: rest), seqCounter := rest.length + 2, hitCount := 0 + 1, missCount := 0 } T = T from if_neg hTne]
  have heE : eraseKey ((⟨k0, v, 0 + T, 1, 0⟩ : CacheEntry α) ::
      freshList 0 T v 1 (k1 :: rest)) k1 =
      (⟨k0, v, 0 + T, 1, 0⟩ : CacheEntry α) :: freshList 0 T v 2 rest := by
    show eraseKey (⟨k0, v, 0 + T, 1, 0⟩ :: ⟨k1, v, 0 + T, 0, 1⟩ ::
      freshList 0 T v 2 rest) k1 = _
    simp [eraseKey, hk01]
  rw [heE]
  have hbeq0 : (k0 == klast) = false := beq_eq_false_iff_ne.mpr hk0l
  have hnone : (freshList 0 T v 2 rest : List (CacheEntry α)).find?
      (fun x => x.key == klast) = none := by
    apply List.find?_eq_none.mpr
    intro e he
    simp only [beq_iff_eq]
    exact fun hc => hklr (hc ▸ freshList_key_mem 0 T v rest 2 e he)
  refine ⟨?_, ?_, ?_⟩
  · simp [freshList_map_key]
  · simp [CacheStore.get, hT]
  · simp [CacheStore.get, hbeq0, hnone, show (1 : Nat) < 1 + T from by omega]

/-- Claim C3: LRU eviction.  Inserting N+1 distinct keys into an empty
N-capacity store with no intervening reads evicts exactly the first-inserted
key (the surviving keys are precisely the later N, in order); if the
first-inserted key is read — promoting its last-access stamp — before the
(N+1)th insert, the second-inserted key is evicted instead, and both the
promoted key and the new key remain retrievable.  N ≥ 1 is rendered as
`rest.length + 1` (first part) and, since a second-inserted key must exist,
N ≥ 2 as `rest.length + 2` (second part). -/
theorem cache_lru_eviction :
    (∀ (α : Type) (v : α) (nm : String) (d T : Nat) (k0 klast : String)
      (rest : List String), 0 < T → (k0 :: rest ++ [klast]).Nodup →
      (fillStore (newCacheStore α nm (rest.length + 1) d) 0 T v
        (k0 :: rest ++ [klast])).entries.map CacheEntry.key = rest ++ [klast]) ∧
    (∀ (α : Type) (v : α) (nm : String) (d T : Nat) (k0 k1 klast : String)
      (rest : List String), 1 < T → (k0 :: k1 :: rest ++ [klast]).Nodup →
      ((((fillStore (newCacheStore α nm (rest.length + 2) d) 0 T v
          (k0 :: k1 :: rest)).get 1 k0).snd.set 1 klast v T).entries.map CacheEntry.key =
        k0 :: rest ++ [klast]) ∧
      (((((fillStore (newCacheStore α nm (rest.length + 2) d) 0 T v
          (k0 :: k1 :: rest)).get 1 k0).snd.set 1 klast v T).get 1 k0).fst = some v) ∧
      (((((fillStore (newCacheStore α nm (rest.length + 2) d) 0 T v
          (k0 :: k1 :: rest)).get 1 k0).snd.set 1 klast v T).get 1 klast).fst = some v)) :=
  ⟨fun α v nm d T k0 klast rest hT hnd =>
    lru_insert_evicts_first v nm d T k0 klast rest hT hnd,
   fun α v nm d T k0 k1 klast rest hT hnd =>
    lru_promote_evicts_second v nm d T k0 k1 klast rest hT hnd⟩

/-- Witness for C3 at the test's concrete scenario: a capacity-2 store; with
no promotion key1 is evicted by inserting key3, and after a read of key1 it is
key2 that is evicted while key1 and key3 stay retrievable. -/
theorem cache_lru_eviction_witness :
    ((fillStore (newCacheStore String "small-store" 2 30) 0 30 "value"
      ["key1", "key2", "key3"]).entries.map CacheEntry.key = ["key2", "key3"]) ∧
    ((((fillStore (newCacheStore String "small-store" 2 30) 0 30 "value"
      ["key1", "key2"]).get 1 "key1").snd.set 1 "key3" "value" 30).entries.map
        CacheEntry.key = ["key1", "key3"]) ∧
    (((((fillStore (newCacheStore String "small-store" 2 30) 0 30 "value"
      ["key1", "key2"]).get 1 "key1").snd.set 1 "key3" "value" 30).get 1
        "key1").fst = some "value") ∧
    (((((fillStore (newCacheStore String "small-store" 2 30) 0 30 "value"
      ["key1", "key2"]).get 1 "key1").snd.set 1 "key3" "value" 30).get 1
        "key3").fst = some "value") :=
  ⟨cache_lru_eviction.1 String "value" "small-store" 30 30 "key1" "key3" ["key2"]
      (by decide) (by decide),
   cache_lru_eviction.2 String "value" "small-store" 30 30 "key1" "key2" "key3" []
      (by decide) (by decide)⟩

/-- Witness for C4 at the test's concrete scenario: a key set with TTL 10 at
time 0 is found before expiry, reported missing at the expiry instant, and
purged by that access. -/
theorem cache_ttl_expiry_witness :
    (((newCacheStore String "test-store" 100 30).set 0 "short-ttl" "value" 10).get 9
        "short-ttl").fst = some "value" ∧
    (((newCacheStore String "test-store" 100 30).set 0 "short-ttl" "value" 10).get 20
        "short-ttl").fst = none ∧
    ∀ e ∈ (((newCacheStore String "test-store" 100 30).set 0 "short-ttl" "value" 10).get 20
        "short-ttl").snd.entries, e.key ≠ "short-ttl" :=
  cache_ttl_expiry String (newCacheStore String "test-store" 100 30) "short-ttl" "value"
    10 0 9 20 (by decide) (by decide) (by decide) (by decide)

end SlurmExporter
